import Mathlib

/-!
Shallow embedding of the core of `upskill-js` (the Tool Execution Layer in
`src/tools.ts`, the Skill Manager in `src/skills.ts`, and the Agentic Loop in
`src/loop.ts`), together with theorems settling the frozen claims about the
natural-language specification of the repository.

Conventions of the embedding:

* JavaScript strings are Lean `String`s; JS `Map`/`Set`/object types are
  association lists / lists with the same insertion-order semantics.
* Asynchronous backends (MCP client calls, local tool functions, the model
  provider) are modelled as explicit outcome functions: a thrown JS exception
  becomes an `Except.error` carrying the exception's message text (a timeout
  surfaces, exactly as in `withTimeout`, as an error whose text is the timeout
  message), and a normal return becomes `Except.ok` of the already-normalized
  string value.
* Loops over mutable locals become folds / fuel-indexed recursion where the
  fuel is the loop bound of the source (`TOOL_MAX_RETRIES`,
  `MAX_AGENT_ITERATIONS`), so every definition evaluates by kernel reduction.
-/

namespace Upskill

/-! ### tools.ts — configuration / environment variable substitution

`resolveConfigVars` (src/upskill-js/src/tools.ts lines 20-41) performs two
regex-replacement passes over the input: first every occurrence of
`$\x7bconfig.PATH\x7d` (PATH one or more non-brace characters) is replaced by the
dotted-path lookup into the config object (kept verbatim when the lookup
fails), then every remaining occurrence of `$\x7bNAME\x7d` is replaced by the
process environment value when that value is truthy (defined and non-empty),
and kept verbatim otherwise. -/

/-- A JS config value as used by `resolveConfigVars`: the config object is a
string-keyed record whose leaves are strings (the `Record<string, unknown>`
values the substitution can meaningfully stringify). `String(v)` of a nested
object is the JS `"[object Object]"`. -/
inductive ConfigVal where
  | str : String → ConfigVal
  | obj : List (String × ConfigVal) → ConfigVal
deriving Repr

/-- JS `String(current)` on the final looked-up value. -/
def ConfigVal.toJSString : ConfigVal → String
  | .str s => s
  | .obj _ => "[object Object]"

/-- JS object property access `current[part]` guarded by
`typeof current === "object" && part in current` (object keys are unique, so
first-match lookup on the association list is exact). -/
def ConfigVal.get? : ConfigVal → String → Option ConfigVal
  | .str _, _ => none
  | .obj fields, part => (fields.find? (fun f => f.1 == part)).map Prod.snd

/-- The dotted-path walk of the config-substitution callback
(tools.ts lines 23-31): descend through the parts, failing as soon as a part
is missing or the current value is not an object. -/
def lookupConfigPath (cfg : List (String × ConfigVal)) (parts : List String) :
    Option ConfigVal :=
  go (ConfigVal.obj cfg) parts
where
  go : ConfigVal → List String → Option ConfigVal
    | cur, [] => some cur
    | cur, p :: ps =>
      match cur.get? p with
      | some nxt => go nxt ps
      | none => none

/-- The process environment: `none` models an unset variable. -/
def EnvMap := String → Option String

/-- Split the input at the first closing brace: `some (inner, after)` when a
brace exists, where the input is `inner ++ [brace] ++ after` and `inner` has
no closing brace (the semantics of the regex piece matching up to the next
brace). -/
def splitAtBrace : List Char → Option (List Char × List Char)
  | [] => none
  | c :: cs =>
    if c = '}' then some ([], cs)
    else
      match splitAtBrace cs with
      | some (inner, after) => some (c :: inner, after)
      | none => none

theorem splitAtBrace_length {cs inner after : List Char}
    (h : splitAtBrace cs = some (inner, after)) : after.length < cs.length := by
  induction cs generalizing inner after with
  | nil => simp [splitAtBrace] at h
  | cons c cs ih =>
    by_cases hc : c = '}'
    · simp [splitAtBrace, hc] at h
      simp [← h.2]
    · simp only [splitAtBrace, if_neg hc] at h
      match hsp : splitAtBrace cs with
      | some (i, a) =>
        rw [hsp] at h
        simp at h
        have := ih hsp
        simp [← h.2]
        omega
      | none => rw [hsp] at h; simp at h

/-- The replacement text of the second (generic environment) pass for a
matched variable name (tools.ts lines 36-38): the environment value when it
is truthy (`process.env[varName] ||` keeps the placeholder both for an unset
variable and for one set to the empty string). -/
def envReplacement (env : EnvMap) (varName : List Char) : List Char :=
  match env (String.mk varName) with
  | some v => if v = "" then '$' :: '{' :: varName ++ ['}'] else v.data
  | none => '$' :: '{' :: varName ++ ['}']

/-- One left-to-right scan implementing
`result.replace(/\$\\\x7b([^}]+)\\\x7d/g, ...)`: at each position, a match needs
a dollar, an open brace, at least one non-brace character and a closing
brace; on a match the replacement is emitted and scanning resumes after the
closing brace, otherwise one character is emitted and scanning advances by
one. The fuel argument only furnishes structural termination; it is at least
the number of characters left, and every step consumes at least one
character, so the `fuel = 0` branch is never reached from `replaceEnvPass`. -/
def replaceEnvChars (env : EnvMap) : Nat → List Char → List Char
  | 0, s => s
  | _ + 1, [] => []
  | fuel + 1, c :: rest =>
    if c = '$' ∧ rest.head? = some '{' then
      match splitAtBrace rest.tail with
      | some (inner, after) =>
        if inner = [] then c :: replaceEnvChars env fuel rest
        else envReplacement env inner ++ replaceEnvChars env fuel after
      | none => c :: replaceEnvChars env fuel rest
    else c :: replaceEnvChars env fuel rest

/-- The generic `$\x7bNAME\x7d` environment pass (tools.ts lines 36-38). -/
def replaceEnvPass (env : EnvMap) (s : String) : String :=
  String.mk (replaceEnvChars env s.data.length s.data)

/-- JS `path.split(".")` over the captured characters: splits at every dot,
keeping empty segments, so `"a..b"` gives `["a", "", "b"]` and the empty
input gives `[""]`. -/
def splitOnDots (chars : List Char) : List String :=
  go chars []
where
  go : List Char → List Char → List String
    | [], acc => [String.mk acc.reverse]
    | c :: rest, acc =>
      if c = '.' then String.mk acc.reverse :: go rest [] else go rest (c :: acc)

/-- The replacement text of the first (config) pass for a matched path
(tools.ts lines 22-33): dotted-path lookup, `String(...)` of the value on
success, the original placeholder on failure. -/
def configReplacement (cfg : List (String × ConfigVal)) (path : List Char) :
    List Char :=
  match lookupConfigPath cfg (splitOnDots path) with
  | some v => v.toJSString.data
  | none => ("$\x7bconfig.".data) ++ path ++ ['}']

/-- The literal match head of the config pass, `$\x7bconfig.`. -/
def configHead : List Char := "$\x7bconfig.".data

/-- One left-to-right scan implementing
`value.replace(/\$\\\x7bconfig\.([^}]+)\\\x7d/g, ...)`; same fuel discipline as
`replaceEnvChars`. -/
def replaceConfigChars (cfg : List (String × ConfigVal)) :
    Nat → List Char → List Char
  | 0, s => s
  | _ + 1, [] => []
  | fuel + 1, c :: rest =>
    if (c :: rest).take 9 = configHead then
      match splitAtBrace ((c :: rest).drop 9) with
      | some (inner, after) =>
        if inner = [] then c :: replaceConfigChars cfg fuel rest
        else configReplacement cfg inner ++ replaceConfigChars cfg fuel after
      | none => c :: replaceConfigChars cfg fuel rest
    else c :: replaceConfigChars cfg fuel rest

/-- The config `$\x7bconfig.PATH\x7d` pass (tools.ts lines 22-33). -/
def replaceConfigPass (cfg : List (String × ConfigVal)) (s : String) : String :=
  String.mk (replaceConfigChars cfg s.data.length s.data)

/-- `resolveConfigVars` (tools.ts lines 20-41): the config pass runs first,
the generic environment pass second, over the config pass's output. -/
def resolveConfigVars (value : String) (cfg : List (String × ConfigVal))
    (env : EnvMap) : String :=
  replaceEnvPass env (replaceConfigPass cfg value)

/-! ### tools.ts — tool resolution and the retry loop of `callTool`

`ToolManager.callTool` (tools.ts lines 257-279) runs up to `TOOL_MAX_RETRIES`
attempts (default 3); each attempt is `withTimeout(callToolImpl(name, args),
TOOL_TIMEOUT_MS)`, whose every failure mode — the timeout, an MCP client
exception, a local tool exception, and the `Unknown tool` error thrown at the
end of `callToolImpl` — lands in one `catch` clause. After a failed attempt
that is not the last, it sleeps `TOOL_RETRY_BACKOFF_MS * 2^attempt`
milliseconds. After the last attempt it returns a failure-describing string.

The registry is modelled by the two name sets `callToolImpl` consults
(`mcpTools`, `localTools`); the behaviour of the resolved backend on a given
attempt — already normalized to a string by lines 290-317, or a thrown
exception's message text, where a timeout appears as the
`Timeout after ...ms` message of `withTimeout` — is an explicit function of
the arguments and the attempt index. -/

/-- The registry state callToolImpl resolves against. -/
structure ToolManagerState where
  mcpTools : List String
  localTools : List String
deriving Repr, DecidableEq

/-- One attempt's backend behaviour: arguments and 0-based attempt index to
either the normalized result string or the message of the exception the
attempt threw (timeouts included). -/
def AttemptFn := String → Nat → Except String String

/-- Resolution of `callToolImpl` (tools.ts lines 281-321): an MCP tool or a
local tool runs the backend; any other name throws `Unknown tool '<name>'`. -/
def resolvesTool (tm : ToolManagerState) (name : String) : Bool :=
  tm.mcpTools.contains name || tm.localTools.contains name

/-- The outcome of one attempt of `withTimeout(callToolImpl(name, args), ...)`
at 0-based attempt index `i`. -/
def attemptOutcome (tm : ToolManagerState) (beh : AttemptFn) (name args : String)
    (i : Nat) : Except String String :=
  if resolvesTool tm name then beh args i
  else .error ("Unknown tool '" ++ name ++ "'")

/-- JS string interpolation of `lastError?.message` when `lastError` is still
`null` (only possible when the loop body never ran). -/
def lastErrText : Option String → String
  | some e => e
  | none => "undefined"

/-- The exhaustion result of `callTool` (tools.ts line 278). -/
def exhaustMsg (name : String) (maxRetries : Nat) (lastError : Option String) :
    String :=
  "Error: Tool '" ++ name ++ "' failed after " ++ toString maxRetries ++
    " attempts: " ++ lastErrText lastError

/-- The `for (let attempt = 0; attempt < TOOL_MAX_RETRIES; attempt++)` loop of
`callTool`, instrumented with the observations the claims are about: the
result string, the number of attempts made, and the list of backoff sleeps
performed (in milliseconds, in order). `remaining` is the number of loop
iterations left (`maxRetries - made`), `made` the attempts already made, and
`lastError`/`sleeps` the accumulated state. -/
def callToolLoop (tm : ToolManagerState) (beh : AttemptFn) (name args : String)
    (maxRetries baseBackoff : Nat) :
    Nat → Nat → Option String → List Nat → String × Nat × List Nat
  | 0, made, lastError, sleeps => (exhaustMsg name maxRetries lastError, made, sleeps)
  | remaining + 1, made, _lastError, sleeps =>
    match attemptOutcome tm beh name args made with
    | .ok v => (v, made + 1, sleeps)
    | .error e =>
      if made < maxRetries - 1 then
        callToolLoop tm beh name args maxRetries baseBackoff remaining (made + 1)
          (some e) (sleeps ++ [baseBackoff * 2 ^ made])
      else
        callToolLoop tm beh name args maxRetries baseBackoff remaining (made + 1)
          (some e) sleeps

/-- `ToolManager.callTool` (tools.ts lines 257-279): result string, attempts
made, and backoff sleeps performed. -/
def callTool (tm : ToolManagerState) (beh : AttemptFn) (name args : String)
    (maxRetries baseBackoff : Nat) : String × Nat × List Nat :=
  callToolLoop tm beh name args maxRetries baseBackoff maxRetries 0 none []

/-! ### skills.ts — the skill manager

`SkillManager` holds the skill catalog (a JS `Map` keyed by skill name) and
the mutable set of loaded skill names (a JS `Set`, iterated in insertion
order). References and scripts of a skill are name-to-file-path maps. -/

/-- `SkillMetadata` (types.ts): name, description, required tool names, body
content, and the reference / script name-to-path maps as association lists in
insertion order (JS `Map` keys are unique). -/
structure SkillMeta where
  name : String
  description : String
  tools : List String
  content : String
  references : List (String × String)
  scripts : List (String × String)
deriving Repr, DecidableEq

/-- The `SkillManager` state: the catalog in insertion order and the loaded
set in insertion order. -/
structure SkillManagerState where
  skills : List SkillMeta
  loadedSkills : List String
deriving Repr, DecidableEq

/-- JS `Map` lookup over the catalog built by the constructor
(`new Map(skills.map(s => [s.name, s]))`): for a duplicated name the last
entry wins. -/
def skillsGet? (sm : SkillManagerState) (name : String) : Option SkillMeta :=
  sm.skills.reverse.find? (fun s => s.name == name)

/-- The key list of that JS `Map`: distinct names, first-insertion order. -/
def skillKeys (sm : SkillManagerState) : List String :=
  (sm.skills.map SkillMeta.name).eraseDups

/-- `SkillManager.size` (the JS `Map` size). -/
def skillCount (sm : SkillManagerState) : Nat :=
  (skillKeys sm).length

/-- `SkillManager.loadedCount` (the JS `Set` size; `addLoaded` keeps the list
duplicate-free, matching `Set.add`). -/
def loadedCount (sm : SkillManagerState) : Nat :=
  sm.loadedSkills.length

/-- JS `Set.add`: append when absent, no-op when present. -/
def addLoaded (loaded : List String) (name : String) : List String :=
  if name ∈ loaded then loaded else loaded ++ [name]

/-- Stable insertion into a sorted list (helper for `sortStrs`). -/
def insertStr (x : String) : List String → List String
  | [] => [x]
  | y :: ys => if x ≤ y then x :: y :: ys else y :: insertStr x ys

/-- JS `Array.sort()` on strings: stable, lexicographic by code unit. -/
def sortStrs : List String → List String
  | [] => []
  | x :: xs => insertStr x (sortStrs xs)

/-- The sorted, comma-separated available-skills enumeration used by the
error messages of skills.ts (`Array.from(this.skills.keys()).sort().join(", ")`). -/
def availableSkills (sm : SkillManagerState) : String :=
  String.intercalate ", " (sortStrs (skillKeys sm))

/-- The per-name error of `loadSkills` for an unknown skill (skills.ts line 69). -/
def unknownSkillErr (sm : SkillManagerState) (name : String) : String :=
  "Error: Skill '" ++ name ++ "' not found. Available skills: " ++
    availableSkills sm

/-- The characters after the last occurrence of `c` (all of them when `c` is
absent) — the basename step of Node's `path.extname`. -/
def afterLastChar (c : Char) (l : List Char) : List Char :=
  l.foldl (fun acc x => if x = c then [] else acc ++ [x]) []

/-- Node `path.extname`: the suffix of the basename from its last dot, or
the empty string when the basename has no dot or only a leading dot. -/
def extname (p : String) : String :=
  let base := afterLastChar '/' p.data
  let rb := base.reverse
  let rext := rb.takeWhile (fun c => c ≠ '.')
  match rb.dropWhile (fun c => c ≠ '.') with
  | [] => ""
  | _ :: rrem => if rrem = [] then "" else String.mk ('.' :: rext.reverse)

/-- The tool-description lookup `toolDescriptions?.get(toolName) || ""`. -/
def toolDesc (tds : List (String × String)) (toolName : String) : String :=
  ((tds.find? (fun d => d.1 == toolName)).map Prod.snd).getD ""

/-- One tool line of the grouped tools section (skills.ts line 82);
the description part is omitted when the description is falsy (empty). -/
def toolLine (tds : List (String × String)) (toolName : String) : String :=
  let desc := toolDesc tds toolName
  "\n- **" ++ toolName ++ "**" ++ (if desc = "" then "" else ": " ++ desc)

/-- The combined per-skill content block of `loadSkills`
(skills.ts lines 75-105): skill header and body, then — each when non-empty —
the grouped tools section, the sorted reference-name list and the sorted
script-name list (scripts annotated with their path extension). -/
def buildSkillContent (sk : SkillMeta) (tds : List (String × String)) : String :=
  let c0 := "# Skill: " ++ sk.name ++ "\n\n" ++ sk.content
  let c1 := c0 ++
    (if sk.tools = [] then ""
     else "\n\n## Tools for " ++ sk.name ++ "\n" ++
       String.join (sk.tools.map (toolLine tds)))
  let c2 := c1 ++
    (if sk.references = [] then ""
     else "\n\n## Available References\n\nThis skill has additional reference documents. Use \x60load_reference(skill_name, reference_name)\x60 to load them:\n" ++
       String.join ((sortStrs (sk.references.map Prod.fst)).map
         (fun r => "\n- \x60" ++ r ++ "\x60")))
  c2 ++
    (if sk.scripts = [] then ""
     else "\n\n## Available Scripts\n\nThis skill has executable scripts. Use \x60load_script(skill_name, script_name)\x60 to load them:\n" ++
       String.join ((sortStrs (sk.scripts.map Prod.fst)).map
         (fun s => "\n- \x60" ++ s ++ "\x60 (" ++
           extname (((sk.scripts.find? (fun q => q.1 == s)).map Prod.snd).getD "") ++ ")")))

/-- `SkillLoadResult` (types.ts). -/
structure SkillLoadResult where
  content : String
  tools : List String
  success : Bool
deriving Repr, DecidableEq

/-- The accumulator of the `for (const name of names)` loop of `loadSkills`:
errors, collected tool names, per-skill content blocks, and the manager state
(only `loadedSkills` ever changes). -/
def loadSkillsStep (tds : List (String × String))
    (acc : List String × List String × List String × SkillManagerState)
    (name : String) :
    List String × List String × List String × SkillManagerState :=
  let (errors, allTools, parts, st) := acc
  match skillsGet? st name with
  | none => (errors ++ [unknownSkillErr st name], allTools, parts, st)
  | some sk =>
    (errors, allTools ++ sk.tools, parts ++ [buildSkillContent sk tds],
      { st with loadedSkills := addLoaded st.loadedSkills name })

/-- `SkillManager.loadSkills` (skills.ts lines 60-127): walks the requested
names accumulating errors and content, marks found skills loaded, and builds
the final result — errors only when nothing was found, error block plus
blank line plus content when mixed, `---`-separated content otherwise. -/
def loadSkills (sm : SkillManagerState) (names : List String)
    (tds : List (String × String)) : SkillManagerState × SkillLoadResult :=
  let (errors, allTools, parts, st) := names.foldl (loadSkillsStep tds) ([], [], [], sm)
  if errors ≠ [] ∧ parts = [] then
    (st, ⟨String.intercalate "\n" errors, [], false⟩)
  else
    let finalContent :=
      if errors ≠ [] then String.intercalate "\n" (errors ++ [""] ++ parts)
      else String.intercalate "\n\n---\n\n" parts
    (st, ⟨finalContent, allTools, parts ≠ []⟩)

/-- JS `Set.add` over a growing list of tool names (`tools.add(tool)`). -/
def pushUniqueStr (acc : List String) (x : String) : List String :=
  if x ∈ acc then acc else acc ++ [x]

/-- `SkillManager.getRequiredTools` (skills.ts lines 232-243): the union, in
insertion order, of the tool names of every currently loaded skill that still
resolves in the catalog. -/
def getRequiredTools (sm : SkillManagerState) : List String :=
  sm.loadedSkills.foldl
    (fun acc name =>
      match skillsGet? sm name with
      | some sk => sk.tools.foldl pushUniqueStr acc
      | none => acc)
    []

/-- Whether `getLoadReferenceToolSchema` returns a schema (skills.ts lines
305-346): some loaded skill resolves and has at least one reference. -/
def refSchemaAvailable (sm : SkillManagerState) : Bool :=
  sm.loadedSkills.any (fun name =>
    match skillsGet? sm name with
    | some sk => !sk.references.isEmpty
    | none => false)

/-- Whether `getLoadScriptToolSchema` returns a schema (skills.ts lines
351-392): some loaded skill resolves and has at least one script. -/
def scriptSchemaAvailable (sm : SkillManagerState) : Bool :=
  sm.loadedSkills.any (fun name =>
    match skillsGet? sm name with
    | some sk => !sk.scripts.isEmpty
    | none => false)

/-! ### loop.ts — message model, context pruning, tool-set assembly, loop

Messages follow the AI SDK `CoreMessage` shape the loop manipulates: a role
and either plain string content or a list of parts (text, tool-call,
tool-result). Tool-call arguments already live as their JSON serialization in
this model, so `JSON.stringify(part.args)` is the identity.

JS object identity: the loop only ever stores freshly created message
objects, so `array.includes(msg)` (reference equality) coincides with
structural equality on duplicate-free lists; the pruning theorems therefore
carry a `Nodup` hypothesis standing for the reference-distinctness that holds
in every real execution. -/

/-- Message roles. -/
inductive Role where
  | system | user | assistant | tool
deriving Repr, DecidableEq

/-- One content part of a `CoreMessage`. -/
inductive CorePart where
  | text : String → CorePart
  | toolCall : (id name args : String) → CorePart
  | toolResult : (id name result : String) → CorePart
deriving Repr, DecidableEq

/-- `CoreMessage` content: a plain string or a part list. -/
inductive CoreContent where
  | str : String → CoreContent
  | parts : List CorePart → CoreContent
deriving Repr, DecidableEq

/-- A `CoreMessage`. -/
structure CoreMsg where
  role : Role
  content : CoreContent
deriving Repr, DecidableEq

/-- A caller-level `Message` (types.ts): optional content, optional tool-call
list (JS distinguishes an absent `tool_calls` from an empty array; both are
possible), optional tool-call id. -/
structure ToolCallMsg where
  id : String
  name : String
  arguments : String
deriving Repr, DecidableEq

/-- Caller-level message (types.ts `Message`). -/
structure Message where
  role : Role
  content : Option String
  tool_calls : Option (List ToolCallMsg)
  tool_call_id : Option String
deriving Repr, DecidableEq

/-- `convertMessage` (loop.ts lines 292-326). A tool message becomes one
tool-result part; an assistant message with a (present) `tool_calls` array
becomes a part list of the truthy text plus one tool-call part per entry
(`args: JSON.parse(...)` is the identity on our serialized representation);
anything else becomes plain string content (`msg.content || ""`). -/
def convertMessage (m : Message) : CoreMsg :=
  match m.role with
  | .tool =>
    ⟨.tool, .parts [.toolResult (m.tool_call_id.getD "") "" (m.content.getD "")]⟩
  | .assistant =>
    match m.tool_calls with
    | some tcs =>
      ⟨.assistant, .parts
        ((match m.content with
          | some c => if c = "" then [] else [CorePart.text c]
          | none => []) ++
          tcs.map (fun tc => CorePart.toolCall tc.id tc.name tc.arguments))⟩
    | none => ⟨.assistant, .str (m.content.getD "")⟩
  | r => ⟨r, .str (m.content.getD "")⟩

/-- Size of one content part (loop.ts lines 28-35): text length, tool-call
name length plus serialized-argument length, tool-result text length. -/
def partSize : CorePart → Nat
  | .text t => t.length
  | .toolCall _ name args => name.length + args.length
  | .toolResult _ _ r => r.length

/-- `estimateContextSize` (loop.ts lines 22-40). -/
def estimateContextSize (msgs : List CoreMsg) : Nat :=
  msgs.foldl
    (fun total m =>
      total + match m.content with
      | .str s => s.length
      | .parts ps => ps.foldl (fun a p => a + partSize p) 0)
    0

/-- The `if (!pruned.includes(msg)) pruned.push(msg)` step of `pruneContext`. -/
def pushUniqueMsg (acc : List CoreMsg) (m : CoreMsg) : List CoreMsg :=
  if m ∈ acc then acc else acc ++ [m]

/-- Whether a message has the user role (the `messages[i].role === "user"`
scan). -/
def isUserMsg (m : CoreMsg) : Bool :=
  match m.role with
  | .user => true
  | _ => false

/-- `pruneContext` (loop.ts lines 46-77): lists of at most 12 messages are
returned unchanged; otherwise the first user message (when one exists) is
kept, followed by the last 10 messages except any already kept. -/
def pruneContext (msgs : List CoreMsg) : List CoreMsg :=
  if msgs.length ≤ 12 then msgs
  else
    let base :=
      match msgs.find? isUserMsg with
      | some m => [m]
      | none => []
    let lastMessages := msgs.drop (msgs.length - 10)
    lastMessages.foldl pushUniqueMsg base

/-- `pruneContextIfNeeded` (loop.ts lines 83-94): prune only when the
character-count estimate reaches the configured limit. -/
def pruneContextIfNeeded (limit : Nat) (msgs : List CoreMsg) : List CoreMsg :=
  if estimateContextSize msgs < limit then msgs else pruneContext msgs

/-- Whether the character list `pat` occurs contiguously inside `s`
(JS `String.includes`). -/
def hasInfixChars : List Char → List Char → Bool
  | [], pat => pat.isEmpty
  | s@(_ :: rest), pat => pat.isPrefixOf s || hasInfixChars rest pat

/-- JS `String.includes`. -/
def strIncludes (s pat : String) : Bool :=
  hasInfixChars s.data pat.data

/-- JS `String.toLowerCase` (character-wise lowering). -/
def jsToLower (s : String) : String :=
  String.mk (s.data.map Char.toLower)

/-- `isContextOverflowError` (loop.ts lines 99-102), over the stringified
failure text (`String(error)`). -/
def isContextOverflowError (err : String) : Bool :=
  let msg := jsToLower err
  strIncludes msg "context" || strIncludes msg "token" ||
    strIncludes msg "too long" || strIncludes msg "maximum"

/-- One `generateText` response as the loop observes it: final text,
optional reasoning, tool-call requests, and the already-executed tool
results the AI SDK collected through the tools' `execute` callbacks. -/
structure GenResult where
  text : String
  reasoning : Option String
  toolCalls : List ToolCallMsg
  toolResults : List (String × String × String)
deriving Repr, DecidableEq

/-- The outcome of one `generateText` invocation: a result, or a thrown
provider failure carrying its stringified text. -/
inductive GenOutcome where
  | ok : GenResult → GenOutcome
  | err : String → GenOutcome
deriving Repr, DecidableEq

/-- The model provider as the loop sees it across invocations: a function of
the number of `generateText` calls already made (the only hidden provider
state the claims need) and of the messages passed in. -/
def ModelFn := Nat → List CoreMsg → GenOutcome

/-- Loop configuration: `MAX_AGENT_ITERATIONS` (default 50) and
`CONTEXT_CHAR_LIMIT` (default 400000). -/
structure LoopConfig where
  maxIterations : Nat
  contextCharLimit : Nat
deriving Repr, DecidableEq

/-- `AgentResponse` (types.ts / loop.ts): final content and joined reasoning. -/
structure AgentResponse where
  content : String
  reasoning : Option String
deriving Repr, DecidableEq

/-- `accumulatedReasoning.length > 0 ? accumulatedReasoning.join("\n\n") : null`. -/
def joinedReasoning (acc : List String) : Option String :=
  if acc.length > 0 then some (String.intercalate "\n\n" acc) else none

/-- The `if (reasoning) accumulatedReasoning.push(reasoning)` step, as the
list appended to the accumulator. -/
def reasoningList : Option String → List String
  | some t => [t]
  | none => []

/-- The two messages appended in the tool phase (loop.ts lines 385-411):
the assistant message with the truthy response text and the tool-call parts,
then the tool message with the correlated results in order. -/
def appendToolMessages (msgs : List CoreMsg) (r : GenResult) : List CoreMsg :=
  msgs ++
    [⟨.assistant, .parts
        ((if r.text = "" then [] else [CorePart.text r.text]) ++
          r.toolCalls.map (fun tc => CorePart.toolCall tc.id tc.name tc.arguments))⟩,
      ⟨.tool, .parts
        (r.toolResults.map (fun tr => CorePart.toolResult tr.1 tr.2.1 tr.2.2))⟩]

/-- The `for (let iteration = 0; ...)` body of `runAgenticLoop` (loop.ts
lines 348-426), instrumented with the number of `generateText` invocations
performed. `fuel` is the number of loop iterations left
(`MAX_AGENT_ITERATIONS - iteration`); `callIdx` the invocations already made;
`acc` the accumulated reasoning. Note that the `continue` taken after
reactive pruning still runs the `iteration++` update of the `for` statement,
which is why the overflow branch also consumes fuel. A non-overflow provider
failure is re-thrown unchanged (`Except.error`). -/
def runLoopFuel (model : ModelFn) (cfg : LoopConfig) :
    Nat → Nat → List CoreMsg → List String →
    Except String AgentResponse × Nat
  | 0, callIdx, _msgs, acc => (.ok ⟨"", joinedReasoning acc⟩, callIdx)
  | fuel + 1, callIdx, msgs, acc =>
    let msgs := pruneContextIfNeeded cfg.contextCharLimit msgs
    match model callIdx msgs with
    | .err e =>
      if isContextOverflowError e then
        runLoopFuel model cfg fuel (callIdx + 1) (pruneContext msgs) acc
      else (.error e, callIdx + 1)
    | .ok r =>
      let acc := acc ++ reasoningList r.reasoning
      if r.toolCalls.isEmpty then (.ok ⟨r.text, joinedReasoning acc⟩, callIdx + 1)
      else runLoopFuel model cfg fuel (callIdx + 1) (appendToolMessages msgs r) acc

/-- `runAgenticLoop` (loop.ts lines 331-426): converts the caller messages,
then iterates; returns the result (or the propagated provider failure)
together with the number of `generateText` invocations made. -/
def runAgenticLoop (model : ModelFn) (cfg : LoopConfig) (messages : List Message) :
    Except String AgentResponse × Nat :=
  runLoopFuel model cfg cfg.maxIterations 0 (messages.map convertMessage) []

/-- A registered tool schema as `buildAISDKTools` consumes it: the
`function.name` and `function.description` of the OpenAI-format schema (the
parameter schema plays no role in tool-set membership). -/
structure ToolSchemaF where
  name : String
  description : String
deriving Repr, DecidableEq

/-- `buildAISDKTools` (loop.ts lines 209-287), as the insertion-ordered key
set of the returned tools record: `load_skill` whenever any skills are
configured; then, only once at least one skill is loaded, the registered
tools filtered to the required set (all of them when no loaded skill declares
required tools), and `load_reference` / `load_script` when available. -/
def buildAISDKTools (sm : SkillManagerState) (allToolSchemas : List ToolSchemaF) :
    List String :=
  let tools : List String := if 0 < skillCount sm then ["load_skill"] else []
  if 0 < loadedCount sm then
    let requiredTools := getRequiredTools sm
    let schemasToAdd :=
      if 0 < requiredTools.length then
        allToolSchemas.filter (fun s => requiredTools.contains s.name)
      else allToolSchemas
    let tools := schemasToAdd.foldl (fun acc s => pushUniqueStr acc s.name) tools
    let tools := if refSchemaAvailable sm then pushUniqueStr tools "load_reference" else tools
    if scriptSchemaAvailable sm then pushUniqueStr tools "load_script" else tools
  else tools

/-! ### Lemmas about the retry loop of `callTool` -/

/-- When every attempt fails with the same message (as resolution failures
do), the loop runs to exhaustion: all `maxRetries` attempts are made, a
backoff sleep follows every attempt but the last, and the exhaustion message
carries the repeated error (or the initial `lastError` when no iteration
ran). -/
theorem callToolLoop_const_err (tm : ToolManagerState) (beh : AttemptFn)
    (name args : String) (maxRetries baseBackoff : Nat) (em : String)
    (h : ∀ i, attemptOutcome tm beh name args i = .error em) :
    ∀ remaining made lastError sleeps, made + remaining = maxRetries →
      callToolLoop tm beh name args maxRetries baseBackoff remaining made lastError sleeps =
        (exhaustMsg name maxRetries (if remaining = 0 then lastError else some em),
          maxRetries,
          sleeps ++ (List.range (remaining - 1)).map (fun i => baseBackoff * 2 ^ (made + i))) := by
  intro remaining
  induction remaining with
  | zero =>
    intro made lastError sleeps hsum
    simp [callToolLoop]
    omega
  | succ r ih =>
    intro made lastError sleeps hsum
    have hstep : callToolLoop tm beh name args maxRetries baseBackoff (r + 1) made lastError sleeps =
        if made < maxRetries - 1 then
          callToolLoop tm beh name args maxRetries baseBackoff r (made + 1) (some em)
            (sleeps ++ [baseBackoff * 2 ^ made])
        else
          callToolLoop tm beh name args maxRetries baseBackoff r (made + 1) (some em) sleeps := by
      rw [callToolLoop, h made]
    rw [hstep]
    by_cases hr : 0 < r
    · rw [if_pos (by omega)]
      rw [ih (made + 1) (some em) (sleeps ++ [baseBackoff * 2 ^ made]) (by omega)]
      rw [if_neg (by omega)]
      simp only [if_neg (by omega : ¬ (r + 1 = 0)), Nat.add_sub_cancel]
      obtain ⟨r', hr'⟩ : ∃ r', r = r' + 1 := ⟨r - 1, by omega⟩
      subst hr'
      rw [List.range_succ_eq_map]
      simp [List.map_map, Function.comp]
      intro a _
      left
      omega
    · have hr0 : r = 0 := by omega
      subst hr0
      rw [if_neg (by omega)]
      rw [ih (made + 1) (some em) sleeps (by omega)]
      simp

/-- When the first `n` attempts fail and attempt `n` succeeds within the
budget, the loop returns the success value after exactly `n + 1` attempts,
having slept `baseBackoff * 2^made` after each failed attempt. -/
theorem callToolLoop_first_ok (tm : ToolManagerState) (beh : AttemptFn)
    (name args : String) (maxRetries baseBackoff n : Nat) (v : String)
    (herr : ∀ i, i < n → ∃ e, attemptOutcome tm beh name args i = .error e)
    (hok : attemptOutcome tm beh name args n = .ok v)
    (hn : n < maxRetries) :
    ∀ remaining made lastError sleeps,
      made + remaining = maxRetries → made ≤ n →
      callToolLoop tm beh name args maxRetries baseBackoff remaining made lastError sleeps =
        (v, n + 1,
          sleeps ++ (List.range (n - made)).map (fun i => baseBackoff * 2 ^ (made + i))) := by
  intro remaining
  induction remaining with
  | zero =>
    intro made lastError sleeps hsum hle
    omega
  | succ r ih =>
    intro made lastError sleeps hsum hle
    by_cases hmn : made = n
    · subst hmn
      rw [callToolLoop, hok]
      simp
    · obtain ⟨e, he⟩ := herr made (by omega)
      have hstep : callToolLoop tm beh name args maxRetries baseBackoff (r + 1) made lastError sleeps =
          if made < maxRetries - 1 then
            callToolLoop tm beh name args maxRetries baseBackoff r (made + 1) (some e)
              (sleeps ++ [baseBackoff * 2 ^ made])
          else
            callToolLoop tm beh name args maxRetries baseBackoff r (made + 1) (some e) sleeps := by
        rw [callToolLoop, he]
      rw [hstep, if_pos (by omega)]
      rw [ih (made + 1) (some e) (sleeps ++ [baseBackoff * 2 ^ made]) (by omega) (by omega)]
      obtain ⟨d, hd⟩ : ∃ d, n - made = d + 1 := ⟨n - made - 1, by omega⟩
      rw [hd]
      have hd' : n - (made + 1) = d := by omega
      rw [hd', List.range_succ_eq_map]
      simp [List.map_map, Function.comp]
      intro a _
      left
      omega

/-- Every run of the loop either returns the value of a successful attempt or
the exhaustion message. -/
theorem callToolLoop_shape (tm : ToolManagerState) (beh : AttemptFn)
    (name args : String) (maxRetries baseBackoff : Nat) :
    ∀ remaining made lastError sleeps,
      (∃ i, made ≤ i ∧ i < made + remaining ∧
        attemptOutcome tm beh name args i =
          .ok (callToolLoop tm beh name args maxRetries baseBackoff remaining made lastError sleeps).1) ∨
      (∃ le, (callToolLoop tm beh name args maxRetries baseBackoff remaining made lastError sleeps).1 =
        exhaustMsg name maxRetries le) := by
  intro remaining
  induction remaining with
  | zero =>
    intro made lastError sleeps
    exact .inr ⟨lastError, rfl⟩
  | succ r ih =>
    intro made lastError sleeps
    cases hatt : attemptOutcome tm beh name args made with
    | ok v =>
      have hstep : callToolLoop tm beh name args maxRetries baseBackoff (r + 1) made lastError sleeps =
          (v, made + 1, sleeps) := by
        rw [callToolLoop, hatt]
      rw [hstep]
      exact .inl ⟨made, le_refl _, by omega, hatt⟩
    | error e =>
      have hstep : callToolLoop tm beh name args maxRetries baseBackoff (r + 1) made lastError sleeps =
          if made < maxRetries - 1 then
            callToolLoop tm beh name args maxRetries baseBackoff r (made + 1) (some e)
              (sleeps ++ [baseBackoff * 2 ^ made])
          else
            callToolLoop tm beh name args maxRetries baseBackoff r (made + 1) (some e) sleeps := by
        rw [callToolLoop, hatt]
      rw [hstep]
      by_cases hcond : made < maxRetries - 1
      · rw [if_pos hcond]
        rcases ih (made + 1) (some e) (sleeps ++ [baseBackoff * 2 ^ made]) with
          ⟨i, h1, h2, h3⟩ | h
        · exact .inl ⟨i, by omega, by omega, h3⟩
        · exact .inr h
      · rw [if_neg hcond]
        rcases ih (made + 1) (some e) sleeps with ⟨i, h1, h2, h3⟩ | h
        · exact .inl ⟨i, by omega, by omega, h3⟩
        · exact .inr h

/-! ### Claims C1, C3, C4 — the Tool Execution Layer -/

/-- C1, counterexample: the claim says an unknown tool gets exactly one
execution attempt, no retries and no backoff sleeps. Calling the tool
`missing_tool` against an empty registry makes 3 attempts with backoff sleeps
of 1000 and 2000 ms — the `catch` of `callTool` does not special-case the
`Unknown tool` resolution failure, so it is retried like any other error. -/
theorem C1_counterexample :
    (callTool ⟨[], []⟩ (fun _ _ => Except.ok "unused") "missing_tool" "" 3 1000).2.1 = 3 ∧
    (callTool ⟨[], []⟩ (fun _ _ => Except.ok "unused") "missing_tool" "" 3 1000).2.2 = [1000, 2000] ∧
    ¬ ((callTool ⟨[], []⟩ (fun _ _ => Except.ok "unused") "missing_tool" "" 3 1000).2.1 = 1 ∧
       (callTool ⟨[], []⟩ (fun _ _ => Except.ok "unused") "missing_tool" "" 3 1000).2.2 = []) := by
  decide

/-- C1, amended: for every tool name that resolves to neither an MCP nor a
local tool, `callTool` makes exactly `maxRetries` execution attempts (default
3) with backoff sleeps `baseBackoff * 2^i` between consecutive attempts, and
the returned string names the tool (it is the exhaustion message whose last
error is `Unknown tool '<name>'`). -/
theorem C1_unknown_tool_retried_to_exhaustion
    (tm : ToolManagerState) (beh : AttemptFn) (name args : String)
    (maxRetries baseBackoff : Nat)
    (hres : resolvesTool tm name = false) (hpos : 0 < maxRetries) :
    callTool tm beh name args maxRetries baseBackoff =
      (exhaustMsg name maxRetries (some ("Unknown tool '" ++ name ++ "'")),
        maxRetries,
        (List.range (maxRetries - 1)).map (fun i => baseBackoff * 2 ^ i)) := by
  have h : ∀ i, attemptOutcome tm beh name args i =
      .error ("Unknown tool '" ++ name ++ "'") := by
    intro i
    simp [attemptOutcome, hres]
  rw [callTool,
    callToolLoop_const_err tm beh name args maxRetries baseBackoff _ h maxRetries 0 none []
      (by omega)]
  rw [if_neg (by omega)]
  simp

/-- C1, witness: the amended statement applied to the empty registry at
`maxRetries = 3`, `baseBackoff = 1000`. -/
theorem C1_witness :
    callTool ⟨[], []⟩ (fun _ _ => Except.ok "unused") "foo" "" 3 1000 =
      (exhaustMsg "foo" 3 (some ("Unknown tool '" ++ "foo" ++ "'")), 3,
        (List.range 2).map (fun i => 1000 * 2 ^ i)) :=
  C1_unknown_tool_retried_to_exhaustion ⟨[], []⟩ (fun _ _ => Except.ok "unused")
    "foo" "" 3 1000 (by decide) (by decide)

/-- C3: for every registry, backend behaviour, tool name and argument value,
`callTool` returns a string — either the value of a successful attempt
(within the attempt bound) or the human-readable exhaustion message — and,
being a total function into `String`, never throws: every failure mode of an
attempt (timeout, backend exception, unknown tool) arrives as an
`Except.error` and is absorbed by the retry loop. -/
theorem C3_callTool_total (tm : ToolManagerState) (beh : AttemptFn)
    (name args : String) (maxRetries baseBackoff : Nat) :
    (∃ i, i < maxRetries ∧ attemptOutcome tm beh name args i =
      .ok (callTool tm beh name args maxRetries baseBackoff).1) ∨
    (∃ le, (callTool tm beh name args maxRetries baseBackoff).1 =
      exhaustMsg name maxRetries le) := by
  rcases callToolLoop_shape tm beh name args maxRetries baseBackoff maxRetries 0 none [] with
    ⟨i, h1, h2, h3⟩ | h
  · exact .inl ⟨i, by omega, h3⟩
  · exact .inr h

/-- C4: for every resolvable tool whose backend fails on attempts
`0, ..., n-1` and succeeds on attempt `n`, with `n + 1` at most the attempt
limit, `callTool` returns the success value after exactly `n + 1` attempts,
and the sleep before retry `i` (1-based) is `baseBackoff * 2^(i-1)`. -/
theorem C4_transient_then_success (tm : ToolManagerState) (beh : AttemptFn)
    (name args : String) (n maxRetries baseBackoff : Nat) (v : String)
    (hres : resolvesTool tm name = true)
    (herr : ∀ i, i < n → ∃ e, beh args i = .error e)
    (hok : beh args n = .ok v)
    (hn : n < maxRetries) :
    callTool tm beh name args maxRetries baseBackoff =
      (v, n + 1, (List.range n).map (fun i => baseBackoff * 2 ^ i)) := by
  have herr' : ∀ i, i < n → ∃ e, attemptOutcome tm beh name args i = .error e := by
    intro i hi
    obtain ⟨e, he⟩ := herr i hi
    exact ⟨e, by simp [attemptOutcome, hres, he]⟩
  have hok' : attemptOutcome tm beh name args n = .ok v := by
    simp [attemptOutcome, hres, hok]
  rw [callTool,
    callToolLoop_first_ok tm beh name args maxRetries baseBackoff n v herr' hok' hn
      maxRetries 0 none [] (by omega) (by omega)]
  simp

/-- A backend that fails twice and then succeeds, for the C4 witness. -/
def c4beh : AttemptFn := fun _ i =>
  if i < 2 then Except.error "transient failure" else Except.ok "done"

/-- C4, witness: two transient failures then success, against a local tool
`t`, with the default limits 3 and 1000 ms. -/
theorem C4_witness :
    callTool ⟨[], ["t"]⟩ c4beh "t" "" 3 1000 =
      ("done", 3, (List.range 2).map (fun i => 1000 * 2 ^ i)) :=
  C4_transient_then_success ⟨[], ["t"]⟩ c4beh "t" "" 2 3 1000 "done" (by decide)
    (fun i hi => ⟨"transient failure", by simp [c4beh, hi]⟩) rfl (by decide)

/-! ### Claim C5 — context pruning -/

/-- Folding `pushUniqueMsg` over a duplicate-free list appends exactly the
elements not already present, in order (the JS loop checks each pushed
message only against messages pushed before it, which on duplicate-free input
is the same as checking against the initial list). -/
theorem foldl_pushUniqueMsg (l : List CoreMsg) :
    ∀ acc, l.Nodup →
      l.foldl pushUniqueMsg acc = acc ++ l.filter (fun m => decide (m ∉ acc)) := by
  induction l with
  | nil => intro acc _; simp
  | cons x xs ih =>
    intro acc hnd
    have hx : x ∉ xs := (List.nodup_cons.mp hnd).1
    have hxs : xs.Nodup := (List.nodup_cons.mp hnd).2
    by_cases hmem : x ∈ acc
    · have hpush : pushUniqueMsg acc x = acc := if_pos hmem
      simp only [List.foldl_cons, hpush, ih acc hxs]
      simp [List.filter_cons, hmem]
    · have hpush : pushUniqueMsg acc x = acc ++ [x] := if_neg hmem
      simp only [List.foldl_cons, hpush, ih (acc ++ [x]) hxs]
      have hfil : xs.filter (fun m => decide (m ∉ acc ++ [x])) =
          xs.filter (fun m => decide (m ∉ acc)) := by
        apply List.filter_congr
        intro m hm
        have hne : m ≠ x := fun h => hx (h ▸ hm)
        simp [List.mem_append, hne]
      rw [hfil]
      simp [List.filter_cons, hmem]

/-- On a duplicate-free list of 13 or more messages with a first user
message `m`, `pruneContext` returns `m` followed by the last 10 messages
except `m` itself. -/
theorem pruneContext_long (msgs : List CoreMsg) (hlen : 13 ≤ msgs.length)
    (hnd : msgs.Nodup) (m : CoreMsg) (hm : msgs.find? isUserMsg = some m) :
    pruneContext msgs =
      m :: (msgs.drop (msgs.length - 10)).filter (fun x => decide (¬ x = m)) := by
  rw [pruneContext, if_neg (by omega)]
  simp only [hm]
  have hnd' : (msgs.drop (msgs.length - 10)).Nodup :=
    (List.drop_sublist _ _).nodup hnd
  rw [foldl_pushUniqueMsg _ [m] hnd']
  simp

/-- C5: a message list of at most 12 entries is returned unchanged by
size-triggered pruning regardless of its estimated size; a duplicate-free
list of 13 or more entries whose character-count estimate meets or exceeds
the limit is pruned to its first user message followed by the last 10
messages with that user message not repeated, preserving relative order
(the `Nodup` hypothesis models the reference-distinctness of the message
objects the JS loop stores). -/
theorem C5_prune_threshold_and_shape (limit : Nat) (msgs : List CoreMsg) :
    (msgs.length ≤ 12 → pruneContextIfNeeded limit msgs = msgs) ∧
    (13 ≤ msgs.length → limit ≤ estimateContextSize msgs → msgs.Nodup →
      ∀ m, msgs.find? isUserMsg = some m →
        pruneContextIfNeeded limit msgs =
          m :: (msgs.drop (msgs.length - 10)).filter (fun x => decide (¬ x = m))) := by
  constructor
  · intro hlen
    rw [pruneContextIfNeeded]
    by_cases hsize : estimateContextSize msgs < limit
    · rw [if_pos hsize]
    · rw [if_neg hsize, pruneContext, if_pos hlen]
  · intro hlen hsize hnd m hm
    rw [pruneContextIfNeeded, if_neg (by omega)]
    exact pruneContext_long msgs hlen hnd m hm

/-- A 13-message conversation for the C5 witness: a user task followed by 12
distinct assistant messages. -/
def c5msgs : List CoreMsg :=
  ⟨.user, .str "task"⟩ :: (List.range 12).map (fun i => ⟨.assistant, .str (toString i)⟩)

/-- C5, witness: with the limit forced to 0, the 13-message conversation is
pruned to the user task plus the last 10 messages. -/
theorem C5_witness :
    pruneContextIfNeeded 0 c5msgs =
      ⟨Role.user, CoreContent.str "task"⟩ ::
        (c5msgs.drop (c5msgs.length - 10)).filter
          (fun x => decide (¬ x = ⟨Role.user, CoreContent.str "task"⟩)) :=
  (C5_prune_threshold_and_shape 0 c5msgs).2 (by decide) (by decide) (by decide)
    ⟨Role.user, CoreContent.str "task"⟩ (by decide)

/-! ### Claims C2 and C9 — the agentic loop -/

/-- Unfolding one loop iteration whose `generateText` succeeds. -/
theorem runLoopFuel_step_ok (model : ModelFn) (cfg : LoopConfig)
    (fuel callIdx : Nat) (msgs : List CoreMsg) (acc : List String) (r : GenResult)
    (h : model callIdx (pruneContextIfNeeded cfg.contextCharLimit msgs) = .ok r) :
    runLoopFuel model cfg (fuel + 1) callIdx msgs acc =
      if r.toolCalls.isEmpty then
        (.ok ⟨r.text, joinedReasoning (acc ++ reasoningList r.reasoning)⟩, callIdx + 1)
      else
        runLoopFuel model cfg fuel (callIdx + 1)
          (appendToolMessages (pruneContextIfNeeded cfg.contextCharLimit msgs) r)
          (acc ++ reasoningList r.reasoning) := by
  simp only [runLoopFuel, h]

/-- Unfolding one loop iteration whose `generateText` throws. -/
theorem runLoopFuel_step_err (model : ModelFn) (cfg : LoopConfig)
    (fuel callIdx : Nat) (msgs : List CoreMsg) (acc : List String) (e : String)
    (h : model callIdx (pruneContextIfNeeded cfg.contextCharLimit msgs) = .err e) :
    runLoopFuel model cfg (fuel + 1) callIdx msgs acc =
      if isContextOverflowError e then
        runLoopFuel model cfg fuel (callIdx + 1)
          (pruneContext (pruneContextIfNeeded cfg.contextCharLimit msgs)) acc
      else (.error e, callIdx + 1) := by
  simp only [runLoopFuel, h]

/-- After `k` synchronous overflow failures (each pruning and consuming an
iteration through the for-statement's `iteration++`) followed by a
no-tool-call success, the loop returns that response after exactly `k + 1`
`generateText` invocations. -/
theorem runLoopFuel_overflow_then_final (model : ModelFn) (cfg : LoopConfig)
    (r : GenResult) (hr : r.toolCalls = []) :
    ∀ k fuel callIdx msgs acc,
      k < fuel →
      (∀ i s, i < k → ∃ e, model (callIdx + i) s = .err e ∧
        isContextOverflowError e = true) →
      (∀ s, model (callIdx + k) s = .ok r) →
      runLoopFuel model cfg fuel callIdx msgs acc =
        (.ok ⟨r.text, joinedReasoning (acc ++ reasoningList r.reasoning)⟩,
          callIdx + k + 1) := by
  intro k
  induction k with
  | zero =>
    intro fuel callIdx msgs acc hk herr hok
    obtain ⟨f, rfl⟩ : ∃ f, fuel = f + 1 := ⟨fuel - 1, by omega⟩
    have hok0 : model callIdx (pruneContextIfNeeded cfg.contextCharLimit msgs) = .ok r := by
      simpa using hok _
    rw [runLoopFuel_step_ok model cfg f callIdx msgs acc r hok0,
      if_pos (by simp [hr])]
  | succ k ih =>
    intro fuel callIdx msgs acc hk herr hok
    obtain ⟨f, rfl⟩ : ∃ f, fuel = f + 1 := ⟨fuel - 1, by omega⟩
    obtain ⟨e, he, hovf⟩ := herr 0 (pruneContextIfNeeded cfg.contextCharLimit msgs) (by omega)
    have he0 : model callIdx (pruneContextIfNeeded cfg.contextCharLimit msgs) = .err e := by
      simpa using he
    rw [runLoopFuel_step_err model cfg f callIdx msgs acc e he0, if_pos hovf]
    rw [ih f (callIdx + 1) _ acc (by omega)
      (fun i s hi => by
        obtain ⟨e', he', ho'⟩ := herr (i + 1) s (by omega)
        exact ⟨e', by rw [show callIdx + 1 + i = callIdx + (i + 1) from by omega]; exact he', ho'⟩)
      (fun s => by
        rw [show callIdx + 1 + k = callIdx + (k + 1) from by omega]
        exact hok s)]
    rw [show callIdx + 1 + k + 1 = callIdx + (k + 1) + 1 from by omega]

/-- A model that answers every invocation with at least one tool call drives
the loop to exhaust all its fuel and exit through the iteration cap. -/
theorem runLoopFuel_always_toolcalls (model : ModelFn) (cfg : LoopConfig)
    (h : ∀ i s, ∃ r, model i s = .ok r ∧ r.toolCalls ≠ []) :
    ∀ fuel callIdx msgs acc, ∃ reas,
      runLoopFuel model cfg fuel callIdx msgs acc = (.ok ⟨"", reas⟩, callIdx + fuel) := by
  intro fuel
  induction fuel with
  | zero =>
    intro callIdx msgs acc
    exact ⟨joinedReasoning acc, by simp [runLoopFuel]⟩
  | succ f ih =>
    intro callIdx msgs acc
    obtain ⟨r, hok, hne⟩ := h callIdx (pruneContextIfNeeded cfg.contextCharLimit msgs)
    obtain ⟨reas, hrec⟩ := ih (callIdx + 1)
      (appendToolMessages (pruneContextIfNeeded cfg.contextCharLimit msgs) r)
      (acc ++ reasoningList r.reasoning)
    refine ⟨reas, ?_⟩
    rw [runLoopFuel_step_ok model cfg f callIdx msgs acc r hok,
      if_neg (by simp [hne]), hrec,
      show callIdx + 1 + f = callIdx + (f + 1) from by omega]

/-- C2, counterexample: the claim says a synchronous overflow failure retries
the same iteration without advancing the iteration counter. With a provider
that always throws `Error: context length exceeded` and a 2-iteration budget,
the loop exits through the iteration cap after exactly 2 `generateText`
invocations: each pruning retry advanced the counter (were the counter not
advanced, overflow retries could never exhaust the budget). -/
theorem C2_counterexample :
    runAgenticLoop (fun _ _ => .err "Error: context length exceeded") ⟨2, 400000⟩
      [⟨Role.user, some "hello", none, none⟩] = (.ok ⟨"", none⟩, 2) := rfl

/-- C2, amended: a synchronous provider failure matching the overflow
heuristic triggers pruning and a retry with the pruned conversation, but the
retry consumes an iteration of the budget (the counter advances); a
non-matching failure propagates to the caller unchanged after one
invocation. -/
theorem C2_overflow_prunes_and_consumes_iteration (model : ModelFn)
    (cfg : LoopConfig) (messages : List Message) :
    (∀ k (r : GenResult), r.toolCalls = [] → k < cfg.maxIterations →
      (∀ i s, i < k → ∃ e, model i s = .err e ∧ isContextOverflowError e = true) →
      (∀ s, model k s = .ok r) →
      runAgenticLoop model cfg messages =
        (.ok ⟨r.text, joinedReasoning (reasoningList r.reasoning)⟩, k + 1)) ∧
    (∀ e, 0 < cfg.maxIterations → isContextOverflowError e = false →
      (∀ s, model 0 s = .err e) →
      runAgenticLoop model cfg messages = (.error e, 1)) := by
  constructor
  · intro k r hr hk herr hok
    rw [runAgenticLoop]
    rw [runLoopFuel_overflow_then_final model cfg r hr k cfg.maxIterations 0 _ [] hk
      (by simpa using herr) (by simpa using hok)]
    simp
  · intro e hpos hovf hmodel
    obtain ⟨f, hf⟩ : ∃ f, cfg.maxIterations = f + 1 := ⟨cfg.maxIterations - 1, by omega⟩
    rw [runAgenticLoop, hf]
    rw [runLoopFuel_step_err model cfg f 0 _ [] e (hmodel _), if_neg (by simp [hovf])]

/-- A provider failing with an overflow error on its first call and
succeeding without tool calls on its second, for the C2 witness. -/
def c2model : ModelFn := fun i _ =>
  if i = 0 then .err "Error: context length exceeded" else .ok ⟨"done", none, [], []⟩

/-- C2, witness: the amended statement applied to `c2model` (one overflow
retry, so 2 invocations) and to a provider whose failure text matches no
overflow keyword (propagated unchanged after 1 invocation). -/
theorem C2_witness :
    runAgenticLoop c2model ⟨3, 400000⟩ [⟨Role.user, some "q", none, none⟩] =
      (.ok ⟨"done", joinedReasoning (reasoningList none)⟩, 2) ∧
    runAgenticLoop (fun _ _ => .err "boom") ⟨3, 400000⟩
      [⟨Role.user, some "q", none, none⟩] = (.error "boom", 1) :=
  ⟨(C2_overflow_prunes_and_consumes_iteration c2model ⟨3, 400000⟩ _).1 1
      ⟨"done", none, [], []⟩ rfl (by decide)
      (fun i s hi => ⟨"Error: context length exceeded",
        by simp [c2model, Nat.lt_one_iff.mp hi], by decide⟩)
      (fun _ => rfl),
    (C2_overflow_prunes_and_consumes_iteration (fun _ _ => .err "boom") ⟨3, 400000⟩ _).2
      "boom" (by decide) (by decide) (fun _ => rfl)⟩

/-- C9: a model that emits at least one tool call on every invocation (and
never throws) drives the loop to terminate after exactly the configured
maximum number of iterations with empty content (never looping indefinitely
or propagating an error); a model that emits zero tool calls on its first
invocation terminates the loop on iteration 1 with that response's text as
the content. -/
theorem C9_loop_bounded (model : ModelFn) (cfg : LoopConfig)
    (messages : List Message) :
    ((∀ i s, ∃ r, model i s = .ok r ∧ r.toolCalls ≠ []) →
      ∃ reas, runAgenticLoop model cfg messages = (.ok ⟨"", reas⟩, cfg.maxIterations)) ∧
    (∀ r, 0 < cfg.maxIterations →
      model 0 (pruneContextIfNeeded cfg.contextCharLimit (messages.map convertMessage)) = .ok r →
      r.toolCalls = [] →
      runAgenticLoop model cfg messages =
        (.ok ⟨r.text, joinedReasoning (reasoningList r.reasoning)⟩, 1)) := by
  constructor
  · intro h
    obtain ⟨reas, hrun⟩ := runLoopFuel_always_toolcalls model cfg h cfg.maxIterations 0
      (messages.map convertMessage) []
    exact ⟨reas, by rw [runAgenticLoop, hrun]; simp⟩
  · intro r hpos hok hr
    obtain ⟨f, hf⟩ : ∃ f, cfg.maxIterations = f + 1 := ⟨cfg.maxIterations - 1, by omega⟩
    rw [runAgenticLoop, hf]
    rw [runLoopFuel_step_ok model cfg f 0 _ [] r hok, if_pos (by simp [hr])]
    simp

/-- A model that requests a tool call on every invocation, for the C9
witness. -/
def c9toolModel : ModelFn := fun _ _ =>
  .ok ⟨"", none, [⟨"1", "t", "[]"⟩], [("1", "t", "ok")]⟩

/-- A model that immediately answers in text, for the C9 witness. -/
def c9textModel : ModelFn := fun _ _ => .ok ⟨"hi", none, [], []⟩

/-- C9, witness: the always-tool-calling model exhausts a 5-iteration budget
with empty content; the immediate-text model returns on iteration 1. -/
theorem C9_witness :
    (∃ reas, runAgenticLoop c9toolModel ⟨5, 400000⟩
      [⟨Role.user, some "q", none, none⟩] = (.ok ⟨"", reas⟩, 5)) ∧
    runAgenticLoop c9textModel ⟨5, 400000⟩ [⟨Role.user, some "q", none, none⟩] =
      (.ok ⟨"hi", joinedReasoning (reasoningList none)⟩, 1) :=
  ⟨(C9_loop_bounded c9toolModel ⟨5, 400000⟩ _).1
      (fun _ _ => ⟨⟨"", none, [⟨"1", "t", "[]"⟩], [("1", "t", "ok")]⟩, rfl, by decide⟩),
    (C9_loop_bounded c9textModel ⟨5, 400000⟩ _).2 ⟨"hi", none, [], []⟩ (by decide) rfl rfl⟩

/-! ### Claim C6 — progressive disclosure of tools -/

theorem mem_pushUniqueStr {a x : String} {acc : List String} :
    a ∈ pushUniqueStr acc x ↔ a ∈ acc ∨ a = x := by
  by_cases h : x ∈ acc
  · simp only [pushUniqueStr, if_pos h]
    constructor
    · exact Or.inl
    · rintro (ha | rfl)
      · exact ha
      · exact h
  · simp [pushUniqueStr, if_neg h]

theorem mem_foldl_pushUniqueStr (l : List String) :
    ∀ acc a, a ∈ l.foldl pushUniqueStr acc ↔ a ∈ acc ∨ a ∈ l := by
  induction l with
  | nil => intro acc a; simp
  | cons x xs ih =>
    intro acc a
    simp only [List.foldl_cons, ih, mem_pushUniqueStr, List.mem_cons]
    tauto

/-- Monotonicity of one step of the `getRequiredTools` fold. -/
theorem getRequiredTools_step_superset (sm : SkillManagerState) (a : String)
    (acc : List String) (name : String) (h : a ∈ acc) :
    a ∈ (match skillsGet? sm name with
          | some sk => sk.tools.foldl pushUniqueStr acc
          | none => acc) := by
  cases skillsGet? sm name with
  | some sk => exact (mem_foldl_pushUniqueStr sk.tools acc a).mpr (Or.inl h)
  | none => exact h

theorem getRequiredTools_foldl_superset (sm : SkillManagerState) (a : String) :
    ∀ (l : List String) (acc : List String), a ∈ acc →
      a ∈ l.foldl
        (fun acc name =>
          match skillsGet? sm name with
          | some sk => sk.tools.foldl pushUniqueStr acc
          | none => acc)
        acc := by
  intro l
  induction l with
  | nil => intro acc h; exact h
  | cons n ns ih =>
    intro acc h
    exact ih _ (getRequiredTools_step_superset sm a acc n h)

/-- A tool required by any loaded, resolvable skill is in
`getRequiredTools`. -/
theorem mem_getRequiredTools (sm : SkillManagerState) (sname : String)
    (S : SkillMeta) (T : String) (hmem : sname ∈ sm.loadedSkills)
    (hget : skillsGet? sm sname = some S) (hT : T ∈ S.tools) :
    T ∈ getRequiredTools sm := by
  rw [getRequiredTools]
  have main : ∀ (l : List String) (acc : List String), sname ∈ l →
      T ∈ l.foldl
        (fun acc name =>
          match skillsGet? sm name with
          | some sk => sk.tools.foldl pushUniqueStr acc
          | none => acc)
        acc := by
    intro l
    induction l with
    | nil => intro acc h; simp at h
    | cons n ns ih =>
      intro acc h
      by_cases hsn : sname = n
      · subst hsn
        rw [List.foldl_cons]
        apply getRequiredTools_foldl_superset
        rw [hget]
        exact (mem_foldl_pushUniqueStr S.tools acc T).mpr (Or.inr hT)
      · have hns : sname ∈ ns := by
          rcases List.mem_cons.mp h with h1 | h2
          · exact absurd h1 hsn
          · exact h2
        rw [List.foldl_cons]
        exact ih _ hns
  exact main sm.loadedSkills [] hmem

/-- Membership survives the conditional `load_reference` / `load_script`
insertions. -/
theorem mem_ite_pushUniqueStr {a x : String} {tools : List String} (c : Bool)
    (h : a ∈ tools) : a ∈ (if c then pushUniqueStr tools x else tools) := by
  cases c
  · exact h
  · exact mem_pushUniqueStr.mpr (Or.inl h)

/-- C6: with at least one configured skill and nothing loaded, the assembled
tool set is exactly the `load_skill` meta-tool; once a skill `S` requiring a
registered tool `T` is loaded, `T` is in the tool set assembled for every
subsequent iteration; and when skills are loaded but none declares required
tools, every registered tool is exposed. -/
theorem C6_progressive_disclosure (sm : SkillManagerState)
    (schemas : List ToolSchemaF) :
    (0 < skillCount sm → sm.loadedSkills = [] →
      buildAISDKTools sm schemas = ["load_skill"]) ∧
    (∀ sname S T, sname ∈ sm.loadedSkills → skillsGet? sm sname = some S →
      T ∈ S.tools → T ∈ schemas.map ToolSchemaF.name →
      T ∈ buildAISDKTools sm schemas) ∧
    (0 < loadedCount sm → getRequiredTools sm = [] →
      ∀ s ∈ schemas, s.name ∈ buildAISDKTools sm schemas) := by
  refine ⟨?_, ?_, ?_⟩
  · intro hcount hempty
    simp [buildAISDKTools, loadedCount, hempty, if_pos hcount]
  · intro sname S T hmem hget hT hTs
    have hreq : T ∈ getRequiredTools sm := mem_getRequiredTools sm sname S T hmem hget hT
    have hloaded : 0 < loadedCount sm := by
      rw [loadedCount]
      exact List.length_pos.mpr (List.ne_nil_of_mem hmem)
    have hreqlen : 0 < (getRequiredTools sm).length :=
      List.length_pos.mpr (List.ne_nil_of_mem hreq)
    simp only [buildAISDKTools, if_pos hloaded, if_pos hreqlen]
    apply mem_ite_pushUniqueStr
    apply mem_ite_pushUniqueStr
    rw [← List.foldl_map, mem_foldl_pushUniqueStr]
    right
    obtain ⟨s, hs, hsname⟩ := List.mem_map.mp hTs
    refine List.mem_map.mpr ⟨s, List.mem_filter.mpr ⟨hs, ?_⟩, hsname⟩
    subst hsname
    simpa using hreq
  · intro hloaded hreqnil
    intro s hs
    have hreqlen : ¬ 0 < (getRequiredTools sm).length := by
      rw [hreqnil]
      simp
    simp only [buildAISDKTools, if_pos hloaded, if_neg hreqlen]
    apply mem_ite_pushUniqueStr
    apply mem_ite_pushUniqueStr
    rw [← List.foldl_map, mem_foldl_pushUniqueStr]
    exact Or.inr (List.mem_map.mpr ⟨s, hs, rfl⟩)

/-- A skill requiring tool `t1`, for the C6 witness. -/
def c6skillA : SkillMeta := ⟨"a", "da", ["t1"], "body-a", [], []⟩

/-- A skill requiring no tools, for the C6 witness. -/
def c6skillB : SkillMeta := ⟨"b", "db", [], "body-b", [], []⟩

/-- C6, witness: before any load only `load_skill` is exposed; after loading
`a` (requires `t1`) the registered `t1` is exposed; after loading only `b`
(no required tools) every registered tool is exposed. -/
theorem C6_witness :
    buildAISDKTools ⟨[c6skillA, c6skillB], []⟩ [⟨"t1", "d1"⟩, ⟨"t2", "d2"⟩] =
      ["load_skill"] ∧
    "t1" ∈ buildAISDKTools ⟨[c6skillA, c6skillB], ["a"]⟩ [⟨"t1", "d1"⟩, ⟨"t2", "d2"⟩] ∧
    "t2" ∈ buildAISDKTools ⟨[c6skillA, c6skillB], ["b"]⟩ [⟨"t1", "d1"⟩, ⟨"t2", "d2"⟩] :=
  ⟨(C6_progressive_disclosure ⟨[c6skillA, c6skillB], []⟩ _).1 (by decide) rfl,
    (C6_progressive_disclosure ⟨[c6skillA, c6skillB], ["a"]⟩ _).2.1 "a" c6skillA "t1"
      (by decide) (by decide) (by decide) (by decide),
    (C6_progressive_disclosure ⟨[c6skillA, c6skillB], ["b"]⟩ _).2.2 (by decide) (by decide)
      ⟨"t2", "d2"⟩ (by decide)⟩

/-! ### Claim C7 — loadSkills -/

/-- The error lines `loadSkills` accumulates: one per unknown requested
name, in request order. -/
def errsOf (sm : SkillManagerState) (names : List String) : List String :=
  (names.filter (fun n => (skillsGet? sm n).isNone)).map (unknownSkillErr sm)

/-- The content blocks `loadSkills` accumulates: one per known requested
name, in request order. -/
def partsOf (sm : SkillManagerState) (tds : List (String × String))
    (names : List String) : List String :=
  names.filterMap (fun n => (skillsGet? sm n).map (fun sk => buildSkillContent sk tds))

/-- The tool names `loadSkills` accumulates, grouped per known skill. -/
def toolsOf (sm : SkillManagerState) (names : List String) : List String :=
  names.flatMap (fun n =>
    match skillsGet? sm n with
    | some sk => sk.tools
    | none => [])

/-- The loaded-skill set after the `loadSkills` walk: each known requested
name added in order. -/
def loadedAfter (sm : SkillManagerState) (loaded : List String)
    (names : List String) : List String :=
  names.foldl
    (fun l n => if (skillsGet? sm n).isSome then addLoaded l n else l) loaded

theorem mem_addLoaded_self (l : List String) (n : String) : n ∈ addLoaded l n := by
  by_cases h : n ∈ l <;> simp [addLoaded, h]

theorem mem_addLoaded_of (l : List String) (x n : String) (h : n ∈ l) :
    n ∈ addLoaded l x := by
  by_cases hx : x ∈ l <;> simp [addLoaded, hx, h]

theorem loadedAfter_superset (sm : SkillManagerState) :
    ∀ (names l : List String) (n : String), n ∈ l → n ∈ loadedAfter sm l names := by
  intro names
  induction names with
  | nil => intro l n h; exact h
  | cons m ms ih =>
    intro l n h
    rw [loadedAfter, List.foldl_cons]
    by_cases hm : (skillsGet? sm m).isSome <;>
      simp only [hm, if_true, if_false] <;>
      [exact ih _ n (mem_addLoaded_of l m n h); exact ih _ n h]

theorem mem_loadedAfter (sm : SkillManagerState) :
    ∀ (names l : List String) (n : String), n ∈ names →
      (skillsGet? sm n).isSome → n ∈ loadedAfter sm l names := by
  intro names
  induction names with
  | nil => intro l n h; simp at h
  | cons m ms ih =>
    intro l n h hsome
    rw [loadedAfter, List.foldl_cons]
    by_cases hnm : n = m
    · subst hnm
      rw [if_pos hsome]
      exact loadedAfter_superset sm ms _ n (mem_addLoaded_self l n)
    · have hns : n ∈ ms := by
        rcases List.mem_cons.mp h with h1 | h2
        · exact absurd h1 hnm
        · exact h2
      by_cases hm : (skillsGet? sm m).isSome <;>
        simp only [hm, if_true, if_false] <;> exact ih _ n hns hsome

theorem loadedAfter_id (sm : SkillManagerState) :
    ∀ (names l : List String), (∀ n ∈ names, skillsGet? sm n = none) →
      loadedAfter sm l names = l := by
  intro names
  induction names with
  | nil => intro l _; rfl
  | cons m ms ih =>
    intro l h
    rw [loadedAfter, List.foldl_cons, if_neg (by simp [h m (by simp)])]
    exact ih l (fun n hn => h n (by simp [hn]))

/-- `skillsGet?` depends only on the catalog. -/
theorem skillsGet?_congr {st sm : SkillManagerState} (h : st.skills = sm.skills)
    (n : String) : skillsGet? st n = skillsGet? sm n := by
  rw [skillsGet?, skillsGet?, h]

/-- `unknownSkillErr` depends only on the catalog. -/
theorem unknownSkillErr_congr {st sm : SkillManagerState} (h : st.skills = sm.skills)
    (n : String) : unknownSkillErr st n = unknownSkillErr sm n := by
  rw [unknownSkillErr, unknownSkillErr, availableSkills, availableSkills,
    skillKeys, skillKeys, h]

/-- Characterization of the `for (const name of names)` fold of `loadSkills`:
errors, tools and content blocks accumulate per requested name, and the
state's catalog never changes while its loaded set gains the known names. -/
theorem loadSkills_foldl (sm : SkillManagerState) (tds : List (String × String)) :
    ∀ (names : List String) (errors allTools parts : List String)
      (st : SkillManagerState), st.skills = sm.skills →
      names.foldl (loadSkillsStep tds) (errors, allTools, parts, st) =
        (errors ++ errsOf sm names, allTools ++ toolsOf sm names,
          parts ++ partsOf sm tds names,
          ⟨st.skills, loadedAfter sm st.loadedSkills names⟩) := by
  intro names
  induction names with
  | nil =>
    intro errors allTools parts st hskills
    simp [errsOf, toolsOf, partsOf, loadedAfter]
  | cons n ns ih =>
    intro errors allTools parts st hskills
    rw [List.foldl_cons]
    cases hg : skillsGet? sm n with
    | none =>
      have hstep : loadSkillsStep tds (errors, allTools, parts, st) n =
          (errors ++ [unknownSkillErr sm n], allTools, parts, st) := by
        rw [loadSkillsStep, skillsGet?_congr hskills, hg, unknownSkillErr_congr hskills]
      rw [hstep, ih _ _ _ st hskills]
      simp [errsOf, toolsOf, partsOf, loadedAfter, List.filter_cons,
        List.filterMap_cons, List.flatMap_cons, hg]
    | some sk =>
      have hstep : loadSkillsStep tds (errors, allTools, parts, st) n =
          (errors, allTools ++ sk.tools, parts ++ [buildSkillContent sk tds],
            ⟨st.skills, addLoaded st.loadedSkills n⟩) := by
        rw [loadSkillsStep, skillsGet?_congr hskills, hg]
      rw [hstep, ih _ _ _ ⟨st.skills, addLoaded st.loadedSkills n⟩ hskills]
      simp [errsOf, toolsOf, partsOf, loadedAfter, List.filter_cons,
        List.filterMap_cons, List.flatMap_cons, hg]

/-- C7: requesting only unknown skill names yields the error string
enumerating the sorted available names (one error line per request, joined
by newlines), marks nothing loaded (the state is returned unchanged) and
reports failure; requesting a mix of known and unknown names still loads and
returns the known skills' content after the error lines, reporting success. -/
theorem C7_loadSkills_unknown_and_mixed (sm : SkillManagerState)
    (names : List String) (tds : List (String × String)) (hne : names ≠ []) :
    ((∀ n ∈ names, skillsGet? sm n = none) →
      loadSkills sm names tds =
        (sm, ⟨String.intercalate "\n" (names.map (unknownSkillErr sm)), [], false⟩)) ∧
    ((∃ n ∈ names, (skillsGet? sm n).isSome) →
      (loadSkills sm names tds).2.success = true ∧
      (∀ n ∈ names, (skillsGet? sm n).isSome →
        n ∈ (loadSkills sm names tds).1.loadedSkills) ∧
      ((∃ n ∈ names, skillsGet? sm n = none) →
        (loadSkills sm names tds).2.content =
          String.intercalate "\n" (errsOf sm names ++ [""] ++ partsOf sm tds names))) := by
  have hfold := loadSkills_foldl sm tds names [] [] [] sm rfl
  constructor
  · intro hall
    have herrs : errsOf sm names = names.map (unknownSkillErr sm) := by
      rw [errsOf, List.filter_eq_self.mpr (fun n hn => by simp [hall n hn])]
    have hparts : partsOf sm tds names = [] := by
      rw [partsOf, List.filterMap_eq_nil_iff]
      intro n hn
      simp [hall n hn]
    have hloaded : loadedAfter sm sm.loadedSkills names = sm.loadedSkills :=
      loadedAfter_id sm names sm.loadedSkills hall
    rw [herrs, hparts, hloaded] at hfold
    simp only [loadSkills, hfold, List.nil_append, List.append_nil]
    rw [if_pos ⟨by simp [hne], trivial⟩]
  · intro hsome
    have hparts : partsOf sm tds names ≠ [] := by
      intro hnil
      obtain ⟨n, hn, hs⟩ := hsome
      have := (List.filterMap_eq_nil_iff.mp hnil) n hn
      rw [Option.map_eq_none'] at this
      rw [this] at hs
      simp at hs
    simp only [loadSkills, hfold, List.nil_append]
    rw [if_neg (fun h => hparts h.2)]
    refine ⟨by simp [hparts], ?_, ?_⟩
    · intro n hn hs
      exact mem_loadedAfter sm names sm.loadedSkills n hn hs
    · intro hunk
      obtain ⟨n, hn, hnone⟩ := hunk
      have herrs : errsOf sm names ≠ [] := by
        rw [errsOf]
        intro hnil
        rw [List.map_eq_nil_iff] at hnil
        have : n ∈ names.filter (fun n => (skillsGet? sm n).isNone) :=
          List.mem_filter.mpr ⟨hn, by simp [hnone]⟩
        rw [hnil] at this
        simp at this
      simp [if_pos herrs]

/-- The two-skill catalog of the spec's `load_skill` example, for the C7
witness. -/
def c7sm : SkillManagerState :=
  ⟨[⟨"a", "da", [], "body-a", [], []⟩, ⟨"b", "db", [], "body-b", [], []⟩], []⟩

/-- C7, witness: requesting `missing` against the catalog with skills `a`
and `b` yields the sorted enumeration error without loading anything, and
requesting `missing` together with `b` still loads `b`. -/
theorem C7_witness :
    loadSkills c7sm ["missing"] [] =
      (c7sm, ⟨String.intercalate "\n" (["missing"].map (unknownSkillErr c7sm)), [], false⟩) ∧
    (loadSkills c7sm ["missing", "b"] []).2.success = true ∧
    "b" ∈ (loadSkills c7sm ["missing", "b"] []).1.loadedSkills ∧
    (loadSkills c7sm ["missing", "b"] []).2.content =
      String.intercalate "\n"
        (errsOf c7sm ["missing", "b"] ++ [""] ++ partsOf c7sm [] ["missing", "b"]) :=
  ⟨(C7_loadSkills_unknown_and_mixed c7sm ["missing"] [] (by decide)).1
      (by intro n hn; fin_cases hn; decide),
    ((C7_loadSkills_unknown_and_mixed c7sm ["missing", "b"] [] (by decide)).2
      ⟨"b", by decide, by decide⟩).1,
    ((C7_loadSkills_unknown_and_mixed c7sm ["missing", "b"] [] (by decide)).2
      ⟨"b", by decide, by decide⟩).2.1 "b" (by decide) (by decide),
    ((C7_loadSkills_unknown_and_mixed c7sm ["missing", "b"] [] (by decide)).2
      ⟨"b", by decide, by decide⟩).2.2 ⟨"missing", by decide, by decide⟩⟩

/-! ### Claims C8 and C10 — config / environment substitution -/

theorem strMk_data (s : String) : String.mk s.data = s := by
  cases s
  rfl

theorem strData_append (s t : String) : (s ++ t).data = s.data ++ t.data := by
  cases s
  cases t
  rfl

theorem replaceEnvChars_nil (env : EnvMap) : ∀ fuel, replaceEnvChars env fuel [] = [] := by
  intro fuel
  cases fuel <;> rfl

theorem splitAtBrace_of_append (l r : List Char) (h : '}' ∉ l) :
    splitAtBrace (l ++ '}' :: r) = some (l, r) := by
  induction l with
  | nil => simp [splitAtBrace]
  | cons c cs ih =>
    have hc : c ≠ '}' := fun hh => h (by simp [hh])
    have hcs : '}' ∉ cs := fun hh => h (by simp [hh])
    simp [splitAtBrace, hc, ih hcs]

theorem splitAtBrace_decomp :
    ∀ (l i a : List Char), splitAtBrace l = some (i, a) → l = i ++ '}' :: a := by
  intro l
  induction l with
  | nil => intro i a h; simp [splitAtBrace] at h
  | cons c cs ih =>
    intro i a h
    by_cases hc : c = '}'
    · subst hc
      simp [splitAtBrace] at h
      simp [h.1, h.2]
    · simp only [splitAtBrace, if_neg hc] at h
      cases hsp : splitAtBrace cs with
      | none => rw [hsp] at h; simp at h
      | some p =>
        obtain ⟨i', a'⟩ := p
        rw [hsp] at h
        simp at h
        rw [← h.1, ← h.2, ih i' a' hsp]
        rfl

theorem splitOnDots_go_cons :
    ∀ (l acc : List Char), ∃ p ps, splitOnDots.go l acc = p :: ps := by
  intro l
  induction l with
  | nil => intro acc; exact ⟨_, _, rfl⟩
  | cons c cs ih =>
    intro acc
    by_cases hc : c = '.'
    · exact ⟨String.mk acc.reverse, splitOnDots.go cs [], by simp [splitOnDots.go, hc]⟩
    · obtain ⟨p, ps, hgo⟩ := ih (c :: acc)
      exact ⟨p, ps, by simp [splitOnDots.go, hc, hgo]⟩

/-- Against the empty config object every dotted-path lookup fails. -/
theorem lookupConfigPath_nil (inner : List Char) :
    lookupConfigPath [] (splitOnDots inner) = none := by
  obtain ⟨p, ps, hgo⟩ := splitOnDots_go_cons inner []
  rw [splitOnDots, hgo]
  rfl

/-- The config pass over the empty config object is the identity: a matched
placeholder whose lookup fails is re-emitted verbatim. -/
theorem replaceConfigChars_nilcfg : ∀ (fuel : Nat) (s : List Char),
    replaceConfigChars [] fuel s = s := by
  intro fuel
  induction fuel with
  | zero => intro s; rfl
  | succ f ih =>
    intro s
    cases s with
    | nil => rfl
    | cons c rest =>
      rw [replaceConfigChars]
      by_cases ht : (c :: rest).take 9 = configHead
      · rw [if_pos ht]
        cases hsp : splitAtBrace ((c :: rest).drop 9) with
        | none => simp only [hsp]; rw [ih rest]
        | some p =>
          obtain ⟨inner, after⟩ := p
          simp only [hsp]
          by_cases hin : inner = []
          · rw [if_pos hin, ih rest]
          · rw [if_neg hin, ih after]
            simp only [configReplacement, lookupConfigPath_nil]
            have hdec := splitAtBrace_decomp _ _ _ hsp
            conv_rhs => rw [← List.take_append_drop 9 (c :: rest)]
            rw [ht, hdec]
            simp [configHead]
      · rw [if_neg ht, ih rest]

/-- The environment pass on the single placeholder `$\x7bNAME\x7d` (NAME
non-empty, brace-free) is exactly the replacement callback's result. -/
theorem replaceEnvChars_placeholder (env : EnvMap) (nd : List Char) (fuel : Nat)
    (hne : nd ≠ []) (hnb : '}' ∉ nd) :
    replaceEnvChars env (fuel + 1) ('$' :: '{' :: (nd ++ ['}'])) =
      envReplacement env nd := by
  rw [replaceEnvChars, if_pos ⟨rfl, rfl⟩]
  simp only [List.tail_cons, splitAtBrace_of_append nd [] hnb]
  rw [if_neg hne, replaceEnvChars_nil, List.append_nil]

/-- String-level form of `replaceEnvChars_placeholder`. -/
theorem replaceEnvPass_placeholder (env : EnvMap) (name : String)
    (hne : name ≠ "") (hnb : '}' ∉ name.data) :
    replaceEnvPass env ("$\x7b" ++ name ++ "\x7d") =
      String.mk (envReplacement env name.data) := by
  have hdata : ("$\x7b" ++ name ++ "\x7d").data = '$' :: '{' :: (name.data ++ ['}']) := by
    rw [strData_append, strData_append]
    rfl
  have hnd : name.data ≠ [] := by
    intro hd
    exact hne (by rw [← strMk_data name, hd])
  rw [replaceEnvPass, hdata]
  rw [show ('$' :: '{' :: (name.data ++ ['}'])).length =
      ((name.data ++ ['}']).length + 1) + 1 from rfl]
  rw [replaceEnvChars_placeholder env name.data _ hnd hnb]

/-- The truthiness view of the environment that the `||` fallback of the
replacement callback actually observes: a variable set to the empty string is
indistinguishable from an unset one. -/
def envTruthy (env : EnvMap) (n : String) : Option String :=
  match env n with
  | some v => if v = "" then none else some v
  | none => none

/-- The environment with one variable removed. -/
def dropEnvVar (env : EnvMap) (name : String) : EnvMap :=
  fun v => if v = name then none else env v

/-- `envReplacement` is determined by the truthiness view of the environment. -/
theorem envReplacement_eq (env : EnvMap) (inner : List Char) :
    envReplacement env inner =
      match envTruthy env (String.mk inner) with
      | some v => v.data
      | none => '$' :: '{' :: inner ++ ['}'] := by
  cases hv : env (String.mk inner) with
  | none => simp [envReplacement, envTruthy, hv]
  | some v =>
    by_cases hv0 : v = "" <;> simp [envReplacement, envTruthy, hv, hv0]

theorem envReplacement_congr (env env' : EnvMap)
    (h : ∀ n, envTruthy env n = envTruthy env' n) (inner : List Char) :
    envReplacement env inner = envReplacement env' inner := by
  rw [envReplacement_eq, envReplacement_eq, h (String.mk inner)]

theorem replaceEnvChars_congr (env env' : EnvMap)
    (h : ∀ n, envTruthy env n = envTruthy env' n) :
    ∀ (fuel : Nat) (s : List Char),
      replaceEnvChars env fuel s = replaceEnvChars env' fuel s := by
  intro fuel
  induction fuel with
  | zero => intro s; rfl
  | succ f ih =>
    intro s
    cases s with
    | nil => rfl
    | cons c rest =>
      rw [replaceEnvChars, replaceEnvChars]
      by_cases hcond : c = '$' ∧ rest.head? = some '{'
      · rw [if_pos hcond, if_pos hcond]
        cases hsp : splitAtBrace rest.tail with
        | none => simp only [hsp]; rw [ih rest]
        | some p =>
          obtain ⟨inner, after⟩ := p
          simp only [hsp]
          by_cases hin : inner = []
          · rw [if_pos hin, if_pos hin, ih rest]
          · rw [if_neg hin, if_neg hin, ih after,
              envReplacement_congr env env' h inner]
      · rw [if_neg hcond, if_neg hcond, ih rest]

theorem placeholder_data (name : String) :
    ("$\x7b" ++ name ++ "\x7d").data = '$' :: '{' :: (name.data ++ ['}']) := by
  rw [strData_append, strData_append]
  rfl

theorem envTruthy_none {env : EnvMap} {n : String} (h : env n = none) :
    envTruthy env n = none := by
  rw [envTruthy, h]

theorem envTruthy_empty {env : EnvMap} {n : String} (h : env n = some "") :
    envTruthy env n = none := by
  rw [envTruthy, h]
  rfl

theorem envTruthy_some {env : EnvMap} {n v : String} (h : env n = some v)
    (hv : v ≠ "") : envTruthy env n = some v := by
  rw [envTruthy, h]
  simp [hv]

/-- C8: the config pass runs first and the environment pass second —
`$\x7bconfig.api.key\x7d` against `api.key = XYZ` yields `XYZ` whatever the
environment holds; an unset `$\x7bUNSET_VAR_123\x7d` stays literal under every
config object; and a config placeholder that fails lookup is re-scanned by
the environment pass, so an environment variable literally named `config.x`
satisfies it. -/
theorem C8_config_then_env_substitution (env : EnvMap) :
    resolveConfigVars "$\x7bconfig.api.key\x7d"
        [("api", ConfigVal.obj [("key", ConfigVal.str "XYZ")])] env = "XYZ" ∧
    (∀ cfg : List (String × ConfigVal), env "UNSET_VAR_123" = none →
      resolveConfigVars "$\x7bUNSET_VAR_123\x7d" cfg env = "$\x7bUNSET_VAR_123\x7d") ∧
    (∀ v : String, v ≠ "" → env "config.x" = some v →
      resolveConfigVars "$\x7bconfig.x\x7d" [] env = v) := by
  refine ⟨rfl, ?_, ?_⟩
  · intro cfg hunset
    have hcfg : replaceConfigPass cfg "$\x7bUNSET_VAR_123\x7d" = "$\x7bUNSET_VAR_123\x7d" := rfl
    rw [resolveConfigVars, hcfg]
    show replaceEnvPass env ("$\x7b" ++ "UNSET_VAR_123" ++ "\x7d") = "$\x7bUNSET_VAR_123\x7d"
    rw [replaceEnvPass_placeholder env "UNSET_VAR_123" (by decide) (by decide),
      envReplacement_eq, strMk_data, envTruthy_none hunset]
    rfl
  · intro v hv henv
    have hcfg : replaceConfigPass [] "$\x7bconfig.x\x7d" = "$\x7bconfig.x\x7d" := rfl
    rw [resolveConfigVars, hcfg]
    show replaceEnvPass env ("$\x7b" ++ "config.x" ++ "\x7d") = v
    rw [replaceEnvPass_placeholder env "config.x" (by decide) (by decide),
      envReplacement_eq, strMk_data, envTruthy_some henv hv]

/-- An environment holding only the oddly-named variable `config.x`, for the
C8 witness. -/
def c8env : EnvMap := fun n => if n = "config.x" then some "V" else none

/-- C8, witness: the three substitution behaviours at the concrete
environment `c8env`. -/
theorem C8_witness :
    resolveConfigVars "$\x7bconfig.api.key\x7d"
        [("api", ConfigVal.obj [("key", ConfigVal.str "XYZ")])] c8env = "XYZ" ∧
    resolveConfigVars "$\x7bUNSET_VAR_123\x7d" [] c8env = "$\x7bUNSET_VAR_123\x7d" ∧
    resolveConfigVars "$\x7bconfig.x\x7d" [] c8env = "V" :=
  ⟨(C8_config_then_env_substitution c8env).1,
    (C8_config_then_env_substitution c8env).2.1 [] rfl,
    (C8_config_then_env_substitution c8env).2.2 "V" (by decide) rfl⟩

/-- C10: an environment variable set to the empty string behaves exactly like
an unset one — substitution with it equals substitution with the variable
removed, on every input string and config object; in particular its own
placeholder `$\x7bNAME\x7d` is left as the unchanged literal, never replaced by
an empty expansion. -/
theorem C10_empty_env_var_like_unset (env : EnvMap) (name : String)
    (hempty : env name = some "") :
    (∀ (s : String) (cfg : List (String × ConfigVal)),
      resolveConfigVars s cfg env = resolveConfigVars s cfg (dropEnvVar env name)) ∧
    (name ≠ "" → '}' ∉ name.data →
      resolveConfigVars ("$\x7b" ++ name ++ "\x7d") [] env =
        "$\x7b" ++ name ++ "\x7d") := by
  have htruthy : ∀ n, envTruthy env n = envTruthy (dropEnvVar env name) n := by
    intro n
    by_cases hn : n = name
    · subst hn
      rw [envTruthy_empty hempty, envTruthy_none (by simp [dropEnvVar])]
    · rw [envTruthy, envTruthy, dropEnvVar]
      simp [hn]
  constructor
  · intro s cfg
    rw [resolveConfigVars, resolveConfigVars, replaceEnvPass, replaceEnvPass,
      replaceEnvChars_congr env (dropEnvVar env name) htruthy]
  · intro hne hnb
    have hcfg : replaceConfigPass [] ("$\x7b" ++ name ++ "\x7d") =
        "$\x7b" ++ name ++ "\x7d" := by
      rw [replaceConfigPass, replaceConfigChars_nilcfg, strMk_data]
    rw [resolveConfigVars, hcfg, replaceEnvPass_placeholder env name hne hnb,
      envReplacement_eq, strMk_data, envTruthy_empty hempty,
      ← strMk_data ("$\x7b" ++ name ++ "\x7d"), placeholder_data]
    rfl

/-- An environment holding `FOO` set to the empty string, for the C10
witness. -/
def c10env : EnvMap := fun n => if n = "FOO" then some "" else none

/-- C10, witness: with `FOO` set to the empty string, substitution behaves as
with `FOO` removed, and `$\x7bFOO\x7d` stays the unchanged literal. -/
theorem C10_witness :
    resolveConfigVars "x $\x7bFOO\x7d y" [] c10env =
      resolveConfigVars "x $\x7bFOO\x7d y" [] (dropEnvVar c10env "FOO") ∧
    resolveConfigVars ("$\x7b" ++ "FOO" ++ "\x7d") [] c10env =
      "$\x7b" ++ "FOO" ++ "\x7d" :=
  ⟨(C10_empty_env_var_like_unset c10env "FOO" rfl).1 "x $\x7bFOO\x7d y" [],
    (C10_empty_env_var_like_unset c10env "FOO" rfl).2 (by decide) (by decide)⟩

end Upskill
